import Mathlib

/-!
Verification development for an Advent-of-Code day-7 style tool:
a filesystem tree is rebuilt from a shell transcript and two size
queries are answered over it.  The Lean definitions below are a shallow
embedding of the Rust sources:

- FSObj models the FSDir / FSFile node pair of fsobject.rs.  The Rust
  nodes are reference-counted shared cells; here the whole tree is a pure
  value and the builder's current directory is a path of child names from
  the root, so the stack of fsobject references becomes the list of
  prefixes of that path.  A directory's BTreeMap of children becomes a
  list of child nodes kept in strictly ascending name order (the BTreeMap
  representation invariant), keyed by the name stored in the node, which
  is exactly how add_dir and add_file key the map.
- Machine integers (usize) are modelled as Nat; the saturating_sub of
  part_2 is Nat subtraction, the panicking plain subtraction is guarded
  explicitly, and integer parsing rejects values above the 64-bit range
  as usize::from_str does.
- Fallible paths return BResult: ok for a normal return, err for an
  error value propagated to the caller with the question-mark operator,
  and panic for aborts (explicit panic calls, out-of-bounds indexing,
  unwrap of a missing value, subtraction overflow).
- Reading the data file is out of scope; build_fs takes the list of
  transcript lines directly.
-/

/-- Outcome of a fallible Rust computation: a returned value, an error
value returned to the caller, or a process abort. -/
inductive BResult (α : Type) where
  | ok : α → BResult α
  | err : String → BResult α
  | panic : String → BResult α

/-- A filesystem node: FSFile or FSDir from fsobject.rs.  Both store
their name; a directory stores its cached aggregate size and its
children in BTreeMap order (ascending by name). -/
inductive FSObj where
  | file (name : String) (size : Nat)
  | dir (name : String) (size : Nat) (children : List FSObj)

/-- The name method of the FSObject trait. -/
def nameOf : FSObj → String
  | .file n _ => n
  | .dir n _ _ => n

/-- The size method of the FSObject trait: a file's fixed size, or a
directory's cached aggregate size (read in O(1), never recomputed). -/
def osize : FSObj → Nat
  | .file _ s => s
  | .dir _ s _ => s

/-- Whether the node is a directory. -/
def isDirB : FSObj → Bool
  | .file _ _ => false
  | .dir _ _ _ => true

/-- Lexicographic comparison of character lists by code point.  UTF-8
encodes code-point order as byte order, so this is exactly the String
ordering a Rust BTreeMap uses for its keys. -/
def strLtL : List Char → List Char → Bool
  | [], [] => false
  | [], _ :: _ => true
  | _ :: _, [] => false
  | a :: as, b :: bs =>
      if a.toNat = b.toNat then strLtL as bs else decide (a.toNat < b.toNat)

/-- The strict BTreeMap key order on strings. -/
def strLt (a b : String) : Bool := strLtL a.data b.data

/-- First child with the given name, mirroring a BTreeMap key lookup
(keys are unique in every tree the program can build). -/
def findChild (n : String) : List FSObj → Option FSObj
  | [] => none
  | c :: cs => if nameOf c = n then some c else findChild n cs

/-- BTreeMap::insert on the name-ordered child list: place the new child
at its name's position, replacing an existing child of the same name. -/
def insertChild (c : FSObj) : List FSObj → List FSObj
  | [] => [c]
  | x :: xs =>
      if strLt (nameOf c) (nameOf x) then c :: x :: xs
      else if nameOf c = nameOf x then c :: xs
      else x :: insertChild c xs

/-- Replace the first child with the given name by a new node (used when
descending: the child at that key is rebuilt after a recursive update). -/
def replaceChild (n : String) (newc : FSObj) : List FSObj → List FSObj
  | [] => []
  | x :: xs => if nameOf x = n then newc :: xs else x :: replaceChild n newc xs

/-- Follow a path of child names down the tree. -/
def lookupAt : FSObj → List String → Option FSObj
  | t, [] => some t
  | .file _ _, _ :: _ => none
  | .dir _ _ cs, n :: ps =>
      match findChild n cs with
      | some c => lookupAt c ps
      | none => none

/-- The path denotes a directory of the tree.  Every path the builder
holds (its stack of directory references) satisfies this. -/
def validDirPath (t : FSObj) (p : List String) : Bool :=
  match lookupAt t p with
  | some (.dir _ _ _) => true
  | _ => false

/-- FSDir::contains relative to the directory at the given path. -/
def containsAt (t : FSObj) (p : List String) (n : String) : Bool :=
  match lookupAt t p with
  | some (.dir _ _ cs) => (findChild n cs).isSome
  | _ => false

/-- FSDir::get_dir relative to the directory at the given path: the
direct child of that name, provided it is a directory. -/
def getDirAt (t : FSObj) (p : List String) (n : String) : Option FSObj :=
  match lookupAt t p with
  | some (.dir _ _ cs) =>
      match findChild n cs with
      | some (.dir nm s k) => some (.dir nm s k)
      | _ => none
  | _ => none

/-- FSDir::add_dir / add_file performed on the directory at the given
path.  Mirrors the Rust call exactly: incr_size first adds the child's
current size to the target directory and to every ancestor on the walk
up to the root (here: every directory along the path), then the child is
inserted into the target's child map.  On a path that does not denote a
directory the Rust code could not even have been called; the model then
leaves the missing levels untouched. -/
def addChildAt : FSObj → List String → FSObj → FSObj
  | .file n s, _, _ => .file n s
  | .dir n s cs, [], c => .dir n (s + osize c) (insertChild c cs)
  | .dir n s cs, p :: ps, c =>
      .dir n (s + osize c)
        (match findChild p cs with
         | some ch => replaceChild p (addChildAt ch ps c) cs
         | none => cs)

/-- The cached size of the node at a path (0 when the path is invalid;
all uses are guarded by validDirPath). -/
def csizeAt (t : FSObj) (p : List String) : Nat :=
  match lookupAt t p with
  | some x => osize x
  | none => 0

/-- Boolean path-prefix test, used to state which tree locations an
insertion may touch. -/
def pathPrefixB : List String → List String → Bool
  | [], _ => true
  | _ :: _, [] => false
  | a :: as, b :: bs => a = b && pathPrefixB as bs

/-- str::split_whitespace: split into maximal runs of non-whitespace
characters, dropping empty tokens. -/
def tokensAux : List Char → List Char → List String
  | [], acc => if acc.isEmpty then [] else [String.mk acc.reverse]
  | ch :: cs, acc =>
      if ch.isWhitespace then
        if acc.isEmpty then tokensAux cs []
        else String.mk acc.reverse :: tokensAux cs []
      else tokensAux cs (ch :: acc)

/-- The split helper of build_fs. -/
def splitWs (s : String) : List String := tokensAux s.data []

/-- Value of a decimal digit character. -/
def digitVal (ch : Char) : Option Nat :=
  if ch.isDigit then some (ch.toNat - 48) else none

/-- Accumulate a decimal value over a run of digit characters. -/
def parseDigits : List Char → Nat → Option Nat
  | [], acc => some acc
  | ch :: cs, acc =>
      match digitVal ch with
      | some d => parseDigits cs (acc * 10 + d)
      | none => none

/-- str::parse::<usize>: an optional leading plus sign, then a nonempty
run of decimal digits whose value fits in 64 bits; anything else is a
parse error. -/
def parseUsize (s : String) : Option Nat :=
  let ds := match s.data with
            | '+' :: rest => rest
            | rest => rest
  match ds with
  | [] => none
  | _ :: _ =>
      match parseDigits ds 0 with
      | some v => if v ≤ 18446744073709551615 then some v else none
      | none => none

/-- The two conceptual states of the build_fs state machine: reading
command lines, or inside an ls listing. -/
inductive BMode where
  | nav : BMode
  | ls : BMode

/-- cur_dir.name() in the path model: the root is named "/" and any
other current directory is stored under its own name. -/
def curName (path : List String) : String := path.getLast?.getD ("/")

/-- One command line of build_fs (the arms of the match on parts): cd
with its three targets, ls, and the panics on unknown commands or
missing tokens.  Returns the new tree, the new current path (the
explicit directory stack is exactly the list of prefixes of this path),
the conflict flag, and the next machine state.  The flag is
instrumentation, cleared when cd creates a directory over an existing
equally named child (which is then a file, since get_dir found no
directory): the one unguarded overwrite of the builder. -/
def navStep (tree : FSObj) (path : List String) (clean : Bool) (line : String) :
    BResult (FSObj × List String × Bool × BMode) :=
  match splitWs line with
  | [] => .panic ("index out of bounds")
  | tok :: args =>
      if tok = "$" then
        match args with
        | [] => .panic ("index out of bounds")
        | verb :: vargs =>
            if verb = "cd" then
              match vargs with
              | [] => .panic ("index out of bounds")
              | name :: _ =>
                  if name = ".." then
                    if curName path = "/" then .ok (tree, path, clean, .nav)
                    else .ok (tree, path.dropLast, clean, .nav)
                  else if name = "/" then .ok (tree, [], clean, .nav)
                  else
                    match getDirAt tree path name with
                    | some _ => .ok (tree, path ++ [name], clean, .nav)
                    | none =>
                        .ok (addChildAt tree path (.dir name 0 []),
                             path ++ [name],
                             clean && !(containsAt tree path name), .nav)
            else if verb = "ls" then .ok (tree, path, clean, .ls)
            else .panic (("Unknown command: ") ++ verb)
      else .panic (("Unknown command: ") ++ tok)

/-- The main loop of build_fs.  In ls mode a line starting with a
command marker is pushed back and control returns to command handling;
since the put-back buffer then holds exactly that line, this is modelled
by handling the boundary line directly.  Listing lines create the child
only when no child of that name exists; file sizes are parsed before the
name is read, as in the source. -/
def buildRun : BMode → FSObj → List String → Bool → List String → BResult (FSObj × Bool)
  | _, tree, _, clean, [] => .ok (tree, clean)
  | .nav, tree, path, clean, line :: rest =>
      (match navStep tree path clean line with
       | .ok (t2, p2, c2, m2) => buildRun m2 t2 p2 c2 rest
       | .err e => .err e
       | .panic m => .panic m)
  | .ls, tree, path, clean, line :: rest =>
      match splitWs line with
      | [] => .panic ("index out of bounds")
      | tok :: args =>
          if tok = "dir" then
            match args with
            | [] => .panic ("index out of bounds")
            | name :: _ =>
                if containsAt tree path name then buildRun .ls tree path clean rest
                else buildRun .ls (addChildAt tree path (.dir name 0 [])) path clean rest
          else if tok = "$" then
            match navStep tree path clean line with
            | .ok (t2, p2, c2, m2) => buildRun m2 t2 p2 c2 rest
            | .err e => .err e
            | .panic m => .panic m
          else
            match parseUsize tok with
            | none => .err (("invalid size token: ") ++ tok)
            | some size =>
                match args with
                | [] => .panic ("index out of bounds")
                | name :: _ =>
                    if containsAt tree path name then buildRun .ls tree path clean rest
                    else buildRun .ls (addChildAt tree path (.file name size)) path clean rest

/-- The root directory created before the first line is read. -/
def fs_root : FSObj := .dir ("/") 0 []

/-- build_fs on a list of transcript lines, also reporting the
instrumentation flag: true when no cd step overwrote a file child. -/
def buildFSX (lines : List String) : BResult (FSObj × Bool) :=
  buildRun .nav fs_root [] true lines

/-- build_fs as the caller sees it: the root of the built tree, or the
propagated error, or the panic. -/
def build_fs (lines : List String) : BResult FSObj :=
  match buildFSX lines with
  | .ok (t, _) => .ok t
  | .err e => .err e
  | .panic m => .panic m

mutual
/-- FSDir::find_dirs_recurs_by: walk the child map in key order; for
each child directory, push it if the predicate holds, then append the
recursive result for that child.  The receiver itself is never pushed. -/
def findDirsRecursBy (pred : FSObj → Bool) : FSObj → List FSObj
  | .file _ _ => []
  | .dir _ _ cs => findL pred cs
/-- The loop body of find_dirs_recurs_by over a child list. -/
def findL (pred : FSObj → Bool) : List FSObj → List FSObj
  | [] => []
  | c :: cs =>
      (match c with
       | .dir n s k =>
           (if pred (FSObj.dir n s k) then [FSObj.dir n s k] else [])
             ++ findDirsRecursBy pred (FSObj.dir n s k)
       | .file _ _ => []) ++ findL pred cs
end

mutual
/-- All proper descendant directories of a node, in the pre-order
depth-first order find_dirs_recurs_by walks them: each child directory
(children in ascending name order) followed by its own descendants. -/
def preorderDirs : FSObj → List FSObj
  | .file _ _ => []
  | .dir _ _ cs => preL cs
/-- preorderDirs over a child list. -/
def preL : List FSObj → List FSObj
  | [] => []
  | c :: cs =>
      (match c with
       | .dir n s k => FSObj.dir n s k :: preorderDirs (FSObj.dir n s k)
       | .file _ _ => []) ++ preL cs
end

mutual
/-- Node count, the measure used for induction over the tree. -/
def sz : FSObj → Nat
  | .file _ _ => 1
  | .dir _ _ cs => 1 + szL cs
/-- Node count of a child list. -/
def szL : List FSObj → Nat
  | [] => 0
  | c :: cs => sz c + szL cs
end

/-- Sum of the cached sizes of a child list. -/
def sumSizes : List FSObj → Nat
  | [] => 0
  | c :: cs => osize c + sumSizes cs

mutual
/-- The size invariant: every directory's cached size equals the sum of
the sizes of the files and directories attached directly beneath it
(hence, recursively, the total size of all files in its subtree). -/
def sizeInv : FSObj → Bool
  | .file _ _ => true
  | .dir _ s cs => (s == sumSizes cs) && sizeInvL cs
/-- sizeInv for every node of a child list. -/
def sizeInvL : List FSObj → Bool
  | [] => true
  | c :: cs => sizeInv c && sizeInvL cs
end

/-- Strictly ascending list of strings (the BTreeMap key order). -/
def ascStr : List String → Bool
  | [] => true
  | [_] => true
  | a :: b :: r => strLt a b && ascStr (b :: r)

/-- Sorted insertion into a list of strings, replacing an equal entry:
the effect of insertChild on the name column of a child list. -/
def insName (s : String) : List String → List String
  | [] => [s]
  | x :: xs =>
      if strLt s x then s :: x :: xs
      else if s = x then s :: xs
      else x :: insName s xs

mutual
/-- Every child list in the tree is in strictly ascending name order:
the representation invariant of the BTreeMap of children. -/
def sortedObj : FSObj → Bool
  | .file _ _ => true
  | .dir _ _ cs => ascStr (cs.map nameOf) && sortedObjL cs
/-- sortedObj for every node of a child list. -/
def sortedObjL : List FSObj → Bool
  | [] => true
  | c :: cs => sortedObj c && sortedObjL cs
end

/-- Iterator::min_by_key on d.size(): the element with the smallest
size, the first such element on ties, none on an empty list. -/
def minBySize : List FSObj → Option FSObj
  | [] => none
  | x :: xs => some (xs.foldl (fun m y => if osize y < osize m then y else m) x)

/-- part_1: sum of the sizes of all directories of size at most 100000,
found by find_dirs_recurs_by over a freshly built tree. -/
def part_1 (lines : List String) : BResult Nat :=
  match build_fs lines with
  | .ok root =>
      .ok (((findDirsRecursBy (fun d => decide (osize d ≤ 100000)) root).map osize).sum)
  | .err e => .err e
  | .panic m => .panic m

/-- part_2: with device size 70000000 and update size 30000000, the size
of the smallest directory whose deletion frees enough space.  The plain
subtraction panics if the root size exceeds the device size (debug
semantics of usize subtraction); saturating_sub is Nat subtraction; the
final unwrap panics when no directory qualifies. -/
def part_2 (lines : List String) : BResult Nat :=
  match build_fs lines with
  | .ok root =>
      let taken := osize root
      if 70000000 < taken then .panic ("attempt to subtract with overflow")
      else
        let avail := 70000000 - taken
        let need := 30000000 - avail
        match minBySize (findDirsRecursBy (fun d => decide (need ≤ osize d)) root) with
        | some d => .ok (osize d)
        | none => .panic ("called unwrap on a None value")
  | .err e => .err e
  | .panic m => .panic m

/-- A listing line (of either shape) whose name token names an existing
child of the directory at the given path: re-listing such a line leaves
the tree unchanged. -/
def relistLine (t : FSObj) (path : List String) (line : String) : Bool :=
  match splitWs line with
  | [] => false
  | tok :: args =>
      if tok = "$" then false
      else if tok = "dir" then
        match args with
        | [] => false
        | name :: _ => containsAt t path name
      else
        (parseUsize tok).isSome &&
          (match args with
           | [] => false
           | name :: _ => containsAt t path name)

/-- Modelled from the spec: the transcript line grammar of the external
interface section (the code has no separate grammar check).  A line is
grammatical when it is a cd command with a target, a bare ls command, a
dir listing line, or a size-and-name listing line. -/
def specGrammatical (line : String) : Bool :=
  match splitWs line with
  | [t1, t2, _] => t1 == "$" && t2 == "cd"
  | [t1, t2] => (t1 == "$" && t2 == "ls") || t1 == "dir" || (parseUsize t1).isSome
  | _ => false

/-- The put-back iterator of putback_iter.rs: the wrapped iterator
(modelled as the list of its remaining items) and the FIFO buffer. -/
structure PutBack (α : Type) where
  iter : List α
  buf : List α

/-- PutBack::put_back: enqueue an item at the back of the buffer. -/
def PutBack.put_back {α : Type} (s : PutBack α) (item : α) : PutBack α :=
  { s with buf := s.buf ++ [item] }

/-- PutBack::next: pop the front of the buffer if it is nonempty,
otherwise advance the underlying iterator. -/
def PutBack.next {α : Type} (s : PutBack α) : Option α × PutBack α :=
  match s.buf with
  | x :: xs => (some x, { s with buf := xs })
  | [] =>
      match s.iter with
      | y :: ys => (some y, { iter := ys, buf := [] })
      | [] => (none, s)

/-- Call next up to k times, collecting the returned items in order. -/
def pbTake {α : Type} : Nat → PutBack α → List α × PutBack α
  | 0, s => ([], s)
  | k + 1, s =>
      match PutBack.next s with
      | (none, s2) => ([], s2)
      | (some x, s2) =>
          let r := pbTake k s2
          (x :: r.1, r.2)

/-- Call put_back once for each item of the list, in order. -/
def putBackList {α : Type} (s : PutBack α) : List α → PutBack α
  | [] => s
  | x :: xs => putBackList (PutBack.put_back s x) xs

/-- Whether a BResult is an error value returned to the caller (as
opposed to a normal return or a panic). -/
def isErrB {α : Type} : BResult α → Bool
  | .err _ => true
  | _ => false

/-- Concrete transcript: a root with a subdirectory a (one file of size
1) and a file b.txt of size 100. -/
def trA : List String :=
  [("$ cd /"), ("$ ls"), ("dir a"), ("100 b.txt"), ("$ cd a"), ("$ ls"), ("1 c.txt")]

/-- The tree built from trA. -/
def treeA : FSObj :=
  .dir ("/") 101 [.dir ("a") 1 [.file ("c.txt") 1], .file ("b.txt") 100]

/-- Concrete transcript whose grammatical lines make cd create a
directory over an existing file child named x. -/
def trBad : List String := [("$ ls"), ("5 x"), ("$ cd x")]

/-- The corrupted tree built from trBad: the root still caches size 5
although its only child is the empty directory x. -/
def treeBad : FSObj := .dir ("/") 5 [.dir ("x") 0 []]

/-- Concrete transcript building a root with files only (no
subdirectory at all). -/
def trFlat : List String := [("$ cd /"), ("$ ls"), ("100 a.txt")]

/-- A second flat transcript, for the empty-result witness. -/
def trFlat2 : List String := [("$ ls"), ("42 f")]

/-! ### Facts about the name order -/

theorem char_eq_of_toNat_eq {a b : Char} (h : a.toNat = b.toNat) : a = b :=
  Char.eq_of_val_eq (UInt32.ext h)

theorem strLtL_flip (as : List Char) :
    ∀ bs, strLtL as bs = false → as ≠ bs → strLtL bs as = true := by
  induction as with
  | nil =>
      intro bs h hne
      cases bs with
      | nil => exact absurd rfl hne
      | cons b bs => simp [strLtL] at h
  | cons a as ih =>
      intro bs h hne
      cases bs with
      | nil => simp [strLtL]
      | cons b bs =>
          by_cases hab : a.toNat = b.toNat
          · have hchar : a = b := char_eq_of_toNat_eq hab
            subst hchar
            simp only [strLtL, if_pos rfl] at h ⊢
            exact ih bs h (fun hh => hne (by rw [hh]))
          · simp only [strLtL] at h
            rw [if_neg hab] at h
            have hlt : ¬ a.toNat < b.toNat := by simpa using h
            have hba : ¬ b.toNat = a.toNat := fun hh => hab hh.symm
            have hlt2 : b.toNat < a.toNat := by omega
            simp only [strLtL]
            rw [if_neg hba]
            simpa using hlt2

theorem strLt_flip {a b : String} (h : strLt a b = false) (hne : a ≠ b) :
    strLt b a = true :=
  strLtL_flip a.data b.data h (fun hh => hne (String.ext hh))

/-! ### Child-list lemmas -/

theorem findChild_name {n : String} :
    ∀ {cs : List FSObj} {ch : FSObj}, findChild n cs = some ch → nameOf ch = n := by
  intro cs
  induction cs with
  | nil => intro ch h; simp [findChild] at h
  | cons x xs ih =>
      intro ch h
      by_cases hx : nameOf x = n
      · rw [findChild, if_pos hx] at h
        cases h
        exact hx
      · rw [findChild, if_neg hx] at h
        exact ih h

theorem findChild_insert_self (c : FSObj) :
    ∀ cs, findChild (nameOf c) (insertChild c cs) = some c := by
  intro cs
  induction cs with
  | nil => simp [insertChild, findChild]
  | cons x xs ih =>
      by_cases hlt : strLt (nameOf c) (nameOf x) = true
      · rw [insertChild, if_pos hlt, findChild, if_pos rfl]
      · rw [insertChild, if_neg hlt]
        by_cases heq : nameOf c = nameOf x
        · rw [if_pos heq, findChild, if_pos rfl]
        · rw [if_neg heq, findChild,
              if_neg (fun hh => heq hh.symm)]
          exact ih

theorem findChild_insert_ne (c : FSObj) (m : String) (hm : m ≠ nameOf c) :
    ∀ cs, findChild m (insertChild c cs) = findChild m cs := by
  intro cs
  induction cs with
  | nil =>
      show findChild m [c] = findChild m []
      simp only [findChild]
      rw [if_neg (fun hh : nameOf c = m => hm hh.symm)]
  | cons x xs ih =>
      by_cases hlt : strLt (nameOf c) (nameOf x) = true
      · rw [insertChild, if_pos hlt, findChild,
            if_neg (fun hh : nameOf c = m => hm hh.symm)]
      · rw [insertChild, if_neg hlt]
        by_cases heq : nameOf c = nameOf x
        · rw [if_pos heq, findChild, if_neg (fun hh : nameOf c = m => hm hh.symm),
              findChild, if_neg (fun hh : nameOf x = m => hm (heq ▸ hh).symm)]
        · rw [if_neg heq]
          by_cases hx : nameOf x = m
          · rw [findChild, if_pos hx, findChild, if_pos hx]
          · rw [findChild, if_neg hx, findChild, if_neg hx]
            exact ih

theorem findChild_replace_self (n : String) (newc : FSObj) (hn : nameOf newc = n) :
    ∀ cs ch, findChild n cs = some ch →
      findChild n (replaceChild n newc cs) = some newc := by
  intro cs
  induction cs with
  | nil => intro ch h; simp [findChild] at h
  | cons x xs ih =>
      intro ch h
      by_cases hx : nameOf x = n
      · rw [replaceChild, if_pos hx, findChild, if_pos hn]
      · rw [findChild, if_neg hx] at h
        rw [replaceChild, if_neg hx, findChild, if_neg hx]
        exact ih ch h

theorem findChild_replace_ne (n : String) (newc : FSObj) (m : String)
    (hn : nameOf newc = n) (hm : m ≠ n) :
    ∀ cs, findChild m (replaceChild n newc cs) = findChild m cs := by
  intro cs
  induction cs with
  | nil => simp [replaceChild]
  | cons x xs ih =>
      by_cases hx : nameOf x = n
      · rw [replaceChild, if_pos hx, findChild,
            if_neg (fun hh : nameOf newc = m => hm (hn ▸ hh.symm ▸ rfl)),
            findChild, if_neg (fun hh : nameOf x = m => hm (hx ▸ hh.symm ▸ rfl))]
      · rw [replaceChild, if_neg hx]
        by_cases hxm : nameOf x = m
        · rw [findChild, if_pos hxm, findChild, if_pos hxm]
        · rw [findChild, if_neg hxm, findChild, if_neg hxm]
          exact ih

theorem sumSizes_insert (c : FSObj) :
    ∀ cs, findChild (nameOf c) cs = none →
      sumSizes (insertChild c cs) = sumSizes cs + osize c := by
  intro cs
  induction cs with
  | nil => intro h; simp [insertChild, sumSizes]
  | cons x xs ih =>
      intro h
      have hx : ¬ nameOf x = nameOf c := by
        intro hh
        rw [findChild, if_pos hh] at h
        cases h
      have hxs : findChild (nameOf c) xs = none := by
        rw [findChild, if_neg hx] at h
        exact h
      by_cases hlt : strLt (nameOf c) (nameOf x) = true
      · rw [insertChild, if_pos hlt]
        simp [sumSizes]
        omega
      · rw [insertChild, if_neg hlt, if_neg (fun hh => hx hh.symm)]
        simp [sumSizes, ih hxs]
        omega

theorem sumSizes_replace (n : String) (newc : FSObj) :
    ∀ cs ch, findChild n cs = some ch →
      sumSizes (replaceChild n newc cs) + osize ch = sumSizes cs + osize newc := by
  intro cs
  induction cs with
  | nil => intro ch h; simp [findChild] at h
  | cons x xs ih =>
      intro ch h
      by_cases hx : nameOf x = n
      · rw [findChild, if_pos hx] at h
        cases h
        rw [replaceChild, if_pos hx]
        simp [sumSizes]
        omega
      · rw [findChild, if_neg hx] at h
        rw [replaceChild, if_neg hx]
        simp only [sumSizes]
        have := ih ch h
        omega

theorem names_replace (n : String) (newc : FSObj) (hn : nameOf newc = n) :
    ∀ cs, (replaceChild n newc cs).map nameOf = cs.map nameOf := by
  intro cs
  induction cs with
  | nil => rfl
  | cons x xs ih =>
      by_cases hx : nameOf x = n
      · rw [replaceChild, if_pos hx]
        simp [hn, hx]
      · rw [replaceChild, if_neg hx]
        simp [ih]

theorem strLtL_irrefl : ∀ as, strLtL as as = false := by
  intro as
  induction as with
  | nil => rfl
  | cons a as ih => simp [strLtL, ih]

theorem strLt_irrefl (a : String) : strLt a a = false := strLtL_irrefl a.data

theorem names_insert (c : FSObj) :
    ∀ cs, (insertChild c cs).map nameOf = insName (nameOf c) (cs.map nameOf) := by
  intro cs
  induction cs with
  | nil => rfl
  | cons x xs ih =>
      by_cases hlt : strLt (nameOf c) (nameOf x) = true
      · rw [insertChild, if_pos hlt]
        simp [insName, hlt]
      · rw [insertChild, if_neg hlt]
        by_cases heq : nameOf c = nameOf x
        · rw [if_pos heq]
          simp [insName, hlt, heq, strLt_irrefl]
        · rw [if_neg heq]
          simp [insName, hlt, heq, ih]

theorem sizeInvL_find (n : String) :
    ∀ cs ch, sizeInvL cs = true → findChild n cs = some ch → sizeInv ch = true := by
  intro cs
  induction cs with
  | nil => intro ch _ h; simp [findChild] at h
  | cons x xs ih =>
      intro ch hinv h
      rw [sizeInvL, Bool.and_eq_true] at hinv
      by_cases hx : nameOf x = n
      · rw [findChild, if_pos hx] at h
        cases h
        exact hinv.1
      · rw [findChild, if_neg hx] at h
        exact ih ch hinv.2 h

theorem sizeInvL_insert (c : FSObj) (hc : sizeInv c = true) :
    ∀ cs, sizeInvL cs = true → sizeInvL (insertChild c cs) = true := by
  intro cs
  induction cs with
  | nil => intro _; simp [insertChild, sizeInvL, hc]
  | cons x xs ih =>
      intro hinv
      rw [sizeInvL, Bool.and_eq_true] at hinv
      by_cases hlt : strLt (nameOf c) (nameOf x) = true
      · rw [insertChild, if_pos hlt]
        simp [sizeInvL, hc, hinv.1, hinv.2]
      · rw [insertChild, if_neg hlt]
        by_cases heq : nameOf c = nameOf x
        · rw [if_pos heq]
          simp [sizeInvL, hc, hinv.2]
        · rw [if_neg heq]
          simp [sizeInvL, hinv.1, ih hinv.2]

theorem sizeInvL_replace (n : String) (newc : FSObj) (hnc : sizeInv newc = true) :
    ∀ cs, sizeInvL cs = true → sizeInvL (replaceChild n newc cs) = true := by
  intro cs
  induction cs with
  | nil => intro _; simp [replaceChild, sizeInvL]
  | cons x xs ih =>
      intro hinv
      rw [sizeInvL, Bool.and_eq_true] at hinv
      by_cases hx : nameOf x = n
      · rw [replaceChild, if_pos hx]
        simp [sizeInvL, hnc, hinv.2]
      · rw [replaceChild, if_neg hx]
        simp [sizeInvL, hinv.1, ih hinv.2]

theorem sortedObjL_find (n : String) :
    ∀ cs ch, sortedObjL cs = true → findChild n cs = some ch → sortedObj ch = true := by
  intro cs
  induction cs with
  | nil => intro ch _ h; simp [findChild] at h
  | cons x xs ih =>
      intro ch hinv h
      rw [sortedObjL, Bool.and_eq_true] at hinv
      by_cases hx : nameOf x = n
      · rw [findChild, if_pos hx] at h
        cases h
        exact hinv.1
      · rw [findChild, if_neg hx] at h
        exact ih ch hinv.2 h

theorem sortedObjL_insert (c : FSObj) (hc : sortedObj c = true) :
    ∀ cs, sortedObjL cs = true → sortedObjL (insertChild c cs) = true := by
  intro cs
  induction cs with
  | nil => intro _; simp [insertChild, sortedObjL, hc]
  | cons x xs ih =>
      intro hinv
      rw [sortedObjL, Bool.and_eq_true] at hinv
      by_cases hlt : strLt (nameOf c) (nameOf x) = true
      · rw [insertChild, if_pos hlt]
        simp [sortedObjL, hc, hinv.1, hinv.2]
      · rw [insertChild, if_neg hlt]
        by_cases heq : nameOf c = nameOf x
        · rw [if_pos heq]
          simp [sortedObjL, hc, hinv.2]
        · rw [if_neg heq]
          simp [sortedObjL, hinv.1, ih hinv.2]

theorem sortedObjL_replace (n : String) (newc : FSObj) (hnc : sortedObj newc = true) :
    ∀ cs, sortedObjL cs = true → sortedObjL (replaceChild n newc cs) = true := by
  intro cs
  induction cs with
  | nil => intro _; simp [replaceChild, sortedObjL]
  | cons x xs ih =>
      intro hinv
      rw [sortedObjL, Bool.and_eq_true] at hinv
      by_cases hx : nameOf x = n
      · rw [replaceChild, if_pos hx]
        simp [sortedObjL, hnc, hinv.2]
      · rw [replaceChild, if_neg hx]
        simp [sortedObjL, hinv.1, ih hinv.2]

theorem ascStr_cons (x : String) (l : List String) :
    ascStr (x :: l) = true ↔
      (ascStr l = true ∧ ∀ h, l.head? = some h → strLt x h = true) := by
  cases l with
  | nil => simp [ascStr]
  | cons y ys =>
      rw [ascStr, Bool.and_eq_true]
      constructor
      · intro hh
        refine ⟨hh.2, ?_⟩
        intro h hh2
        cases hh2
        exact hh.1
      · intro hh
        exact ⟨hh.2 y rfl, hh.1⟩

theorem insName_head (s : String) :
    ∀ l h, (insName s l).head? = some h → h = s ∨ l.head? = some h := by
  intro l
  cases l with
  | nil =>
      intro h hh
      simp [insName] at hh
      left
      exact hh.symm
  | cons x xs =>
      intro h hh
      rw [insName] at hh
      by_cases h1 : strLt s x = true
      · rw [if_pos h1] at hh
        simp at hh
        left
        exact hh.symm
      · rw [if_neg h1] at hh
        by_cases h2 : s = x
        · rw [if_pos h2] at hh
          simp at hh
          left
          exact hh.symm
        · rw [if_neg h2] at hh
          simp at hh
          right
          simp [hh]

theorem ascStr_insName (s : String) :
    ∀ l, ascStr l = true → ascStr (insName s l) = true := by
  intro l
  induction l with
  | nil => intro _; rfl
  | cons x xs ih =>
      intro hl
      have hx := (ascStr_cons x xs).mp hl
      rw [insName]
      by_cases h1 : strLt s x = true
      · rw [if_pos h1]
        rw [ascStr, Bool.and_eq_true]
        exact ⟨h1, hl⟩
      · rw [if_neg h1]
        by_cases h2 : s = x
        · rw [if_pos h2]
          rw [h2]
          exact hl
        · rw [if_neg h2]
          rw [ascStr_cons]
          refine ⟨ih hx.1, ?_⟩
          intro h hh
          rcases insName_head s xs h hh with h3 | h3
          · rw [h3]
            exact strLt_flip (by simpa using h1) (fun hh2 => h2 hh2)
          · exact hx.2 h h3

/-! ### Path and insertion lemmas -/

theorem nameOf_add (t : FSObj) (p : List String) (c : FSObj) :
    nameOf (addChildAt t p c) = nameOf t := by
  cases t with
  | file n s => cases p <;> rfl
  | dir n s cs => cases p <;> rfl

theorem isDirB_add (t : FSObj) (p : List String) (c : FSObj) :
    isDirB (addChildAt t p c) = isDirB t := by
  cases t with
  | file n s => cases p <;> rfl
  | dir n s cs => cases p <;> rfl

theorem osize_add_dir (n : String) (s : Nat) (cs : List FSObj) (p : List String) (c : FSObj) :
    osize (addChildAt (.dir n s cs) p c) = s + osize c := by
  cases p <;> rfl

theorem lookupAt_append (q : List String) :
    ∀ (t : FSObj) (p : List String),
      lookupAt t (p ++ q) =
        match lookupAt t p with
        | some m => lookupAt m q
        | none => none := by
  intro t p
  induction p generalizing t with
  | nil => simp [lookupAt]
  | cons a as ih =>
      cases t with
      | file n s => simp [lookupAt]
      | dir n s cs =>
          show lookupAt (FSObj.dir n s cs) ((a :: as) ++ q) = _
          rw [List.cons_append, lookupAt]
          cases hf : findChild a cs with
          | none => simp [lookupAt, hf]
          | some ch =>
              simp only [lookupAt, hf]
              exact ih ch

theorem validDirPath_nil (t : FSObj) : validDirPath t [] = isDirB t := by
  cases t <;> rfl

theorem valid_cons (n : String) (s : Nat) (cs : List FSObj) (p0 : String) (ps : List String) :
    validDirPath (.dir n s cs) (p0 :: ps) =
      (match findChild p0 cs with
       | some ch => validDirPath ch ps
       | none => false) := by
  rw [validDirPath, lookupAt]
  cases hf : findChild p0 cs with
  | none => rfl
  | some ch => rfl

theorem containsAt_cons (n : String) (s : Nat) (cs : List FSObj) (p0 : String)
    (ps : List String) (ch : FSObj) (hf : findChild p0 cs = some ch) (m : String) :
    containsAt (.dir n s cs) (p0 :: ps) m = containsAt ch ps m := by
  rw [containsAt, containsAt, lookupAt, hf]

theorem isDir_of_valid (t : FSObj) (p : List String) (h : validDirPath t p = true) :
    isDirB t = true := by
  cases t with
  | dir n s cs => rfl
  | file n s =>
      cases p with
      | nil => simp [validDirPath, lookupAt] at h
      | cons a as => simp [validDirPath, lookupAt] at h

theorem lookup_add_self (c : FSObj) :
    ∀ (p : List String) (t : FSObj), validDirPath t p = true →
      lookupAt (addChildAt t p c) (p ++ [nameOf c]) = some c := by
  intro p
  induction p with
  | nil =>
      intro t hv
      cases t with
      | file n s => simp [validDirPath, lookupAt] at hv
      | dir n s cs =>
          simp [addChildAt, lookupAt, findChild_insert_self]
  | cons p0 ps ih =>
      intro t hv
      cases t with
      | file n s => simp [validDirPath, lookupAt] at hv
      | dir n s cs =>
          rw [valid_cons] at hv
          cases hf : findChild p0 cs with
          | none => rw [hf] at hv; cases hv
          | some ch =>
              rw [hf] at hv
              have hname : nameOf (addChildAt ch ps c) = nameOf ch := nameOf_add _ _ _
              have hchn : nameOf ch = p0 := findChild_name hf
              simp only [addChildAt, hf, List.cons_append, lookupAt]
              rw [findChild_replace_self p0 _ (by rw [hname, hchn]) cs ch hf]
              exact ih ch hv

theorem csize_add_prefix (c : FSObj) :
    ∀ (p : List String) (t : FSObj) (q : List String),
      validDirPath t p = true → pathPrefixB q p = true →
      csizeAt (addChildAt t p c) q = csizeAt t q + osize c := by
  intro p
  induction p with
  | nil =>
      intro t q hv hq
      cases q with
      | cons a as => simp [pathPrefixB] at hq
      | nil =>
          cases t with
          | file n s => simp [validDirPath, lookupAt] at hv
          | dir n s cs => simp [csizeAt, lookupAt, addChildAt, osize]
  | cons p0 ps ih =>
      intro t q hv hq
      cases t with
      | file n s => simp [validDirPath, lookupAt] at hv
      | dir n s cs =>
          rw [valid_cons] at hv
          cases hf : findChild p0 cs with
          | none => rw [hf] at hv; cases hv
          | some ch =>
              rw [hf] at hv
              cases q with
              | nil => simp [csizeAt, lookupAt, addChildAt, hf, osize]
              | cons q0 qs =>
                  rw [pathPrefixB, Bool.and_eq_true] at hq
                  have hq0 : q0 = p0 := by simpa using hq.1
                  subst hq0
                  have hname : nameOf (addChildAt ch ps c) = nameOf ch := nameOf_add _ _ _
                  have hchn : nameOf ch = q0 := findChild_name hf
                  simp only [addChildAt, hf, csizeAt, lookupAt]
                  rw [findChild_replace_self q0 _ (by rw [hname, hchn]) cs ch hf]
                  have h2 := ih ch qs hv hq.2
                  simpa [csizeAt] using h2

theorem lookup_add_frame (c : FSObj) :
    ∀ (p : List String) (t : FSObj) (q : List String),
      pathPrefixB q p = false → pathPrefixB (p ++ [nameOf c]) q = false →
      lookupAt (addChildAt t p c) q = lookupAt t q := by
  intro p
  induction p with
  | nil =>
      intro t q hq1 hq2
      cases q with
      | nil => simp [pathPrefixB] at hq1
      | cons q0 qs =>
          have hne : ¬ (nameOf c = q0) := by simpa [pathPrefixB] using hq2
          cases t with
          | file n s => simp [addChildAt]
          | dir n s cs =>
              simp only [addChildAt, lookupAt,
                findChild_insert_ne c q0 (fun hh => hne hh.symm) cs]
  | cons p0 ps ih =>
      intro t q hq1 hq2
      cases q with
      | nil => simp [pathPrefixB] at hq1
      | cons q0 qs =>
          cases t with
          | file n s => simp [addChildAt]
          | dir n s cs =>
              cases hf : findChild p0 cs with
              | none => simp only [addChildAt, hf, lookupAt]
              | some ch =>
                  have hname : nameOf (addChildAt ch ps c) = nameOf ch := nameOf_add _ _ _
                  have hchn : nameOf ch = p0 := findChild_name hf
                  by_cases hq0 : q0 = p0
                  · subst hq0
                    have hq1' : pathPrefixB qs ps = false := by
                      simpa [pathPrefixB] using hq1
                    have hq2' : pathPrefixB (ps ++ [nameOf c]) qs = false := by
                      simpa [pathPrefixB] using hq2
                    simp only [addChildAt, hf, lookupAt]
                    rw [findChild_replace_self q0 _ (by rw [hname, hchn]) cs ch hf]
                    exact ih ch qs hq1' hq2'
                  · simp only [addChildAt, hf, lookupAt]
                    rw [findChild_replace_ne p0 _ q0 (by rw [hname, hchn]) hq0 cs]

theorem valid_add_same (c : FSObj) :
    ∀ (p : List String) (t : FSObj), validDirPath t p = true →
      validDirPath (addChildAt t p c) p = true := by
  intro p
  induction p with
  | nil =>
      intro t hv
      cases t with
      | file n s => simp [validDirPath, lookupAt] at hv
      | dir n s cs => simp [addChildAt, validDirPath, lookupAt]
  | cons p0 ps ih =>
      intro t hv
      cases t with
      | file n s => simp [validDirPath, lookupAt] at hv
      | dir n s cs =>
          rw [valid_cons] at hv
          cases hf : findChild p0 cs with
          | none => rw [hf] at hv; cases hv
          | some ch =>
              rw [hf] at hv
              have hname : nameOf (addChildAt ch ps c) = nameOf ch := nameOf_add _ _ _
              have hchn : nameOf ch = p0 := findChild_name hf
              simp only [addChildAt, hf]
              rw [valid_cons,
                  findChild_replace_self p0 _ (by rw [hname, hchn]) cs ch hf]
              exact ih ch hv

theorem valid_append_left :
    ∀ (p q : List String) (t : FSObj), validDirPath t (p ++ q) = true →
      validDirPath t p = true := by
  intro p q t h
  rw [validDirPath, lookupAt_append] at h
  cases hl : lookupAt t p with
  | none => rw [hl] at h; cases h
  | some m =>
      rw [hl] at h
      cases m with
      | dir nn ss k => rw [validDirPath, hl]
      | file nn ss =>
          cases q with
          | nil => simp [lookupAt] at h
          | cons a as => simp [lookupAt] at h

theorem valid_dropLast (t : FSObj) (p : List String) (h : validDirPath t p = true) :
    validDirPath t p.dropLast = true := by
  by_cases hp : p = []
  · subst hp; simpa using h
  · have h2 := List.dropLast_append_getLast hp
    rw [← h2] at h
    exact valid_append_left _ _ _ h

theorem valid_getDir (t : FSObj) (p : List String) (n : String) (d : FSObj)
    (h : getDirAt t p n = some d) : validDirPath t (p ++ [n]) = true := by
  cases hl : lookupAt t p with
  | none => simp [getDirAt, hl] at h
  | some m =>
      cases m with
      | file nn ss => simp [getDirAt, hl] at h
      | dir nn ss k =>
          simp only [getDirAt, hl] at h
          cases hf : findChild n k with
          | none => rw [hf] at h; simp at h
          | some x =>
              rw [hf] at h
              cases x with
              | file a b => simp at h
              | dir a b cc =>
                  rw [validDirPath, lookupAt_append, hl]
                  simp [lookupAt, hf]

theorem valid_add_new (t : FSObj) (p : List String) (name : String)
    (hv : validDirPath t p = true) :
    validDirPath (addChildAt t p (.dir name 0 [])) (p ++ [name]) = true := by
  have h := lookup_add_self (.dir name 0 []) p t hv
  rw [show nameOf (FSObj.dir name 0 []) = name from rfl] at h
  rw [validDirPath, h]

theorem add_sizeInv (c : FSObj) :
    ∀ (p : List String) (t : FSObj), validDirPath t p = true → sizeInv t = true →
      sizeInv c = true → containsAt t p (nameOf c) = false →
      sizeInv (addChildAt t p c) = true := by
  intro p
  induction p with
  | nil =>
      intro t hv hinv hc hcon
      cases t with
      | file n s => simp [validDirPath, lookupAt] at hv
      | dir n s cs =>
          have hfind : findChild (nameOf c) cs = none := by
            simp only [containsAt, lookupAt] at hcon
            cases hf : findChild (nameOf c) cs with
            | none => rfl
            | some x => rw [hf] at hcon; simp at hcon
          rw [sizeInv, Bool.and_eq_true] at hinv
          have hs : s = sumSizes cs := by simpa using hinv.1
          simp only [addChildAt, sizeInv, Bool.and_eq_true]
          constructor
          · rw [sumSizes_insert c cs hfind, hs]
            simp
          · exact sizeInvL_insert c hc cs hinv.2
  | cons p0 ps ih =>
      intro t hv hinv hc hcon
      cases t with
      | file n s => simp [validDirPath, lookupAt] at hv
      | dir n s cs =>
          rw [valid_cons] at hv
          cases hf : findChild p0 cs with
          | none => rw [hf] at hv; cases hv
          | some ch =>
              rw [hf] at hv
              rw [sizeInv, Bool.and_eq_true] at hinv
              have hs : s = sumSizes cs := by simpa using hinv.1
              have hcon2 : containsAt ch ps (nameOf c) = false := by
                rw [containsAt_cons n s cs p0 ps ch hf] at hcon
                exact hcon
              have hchinv : sizeInv ch = true := sizeInvL_find p0 cs ch hinv.2 hf
              have hnew : sizeInv (addChildAt ch ps c) = true := ih ch hv hchinv hc hcon2
              have hdir : isDirB ch = true := isDir_of_valid ch ps hv
              have hosz : osize (addChildAt ch ps c) = osize ch + osize c := by
                cases ch with
                | file a b => simp [isDirB] at hdir
                | dir a b k => rw [osize_add_dir]; rfl
              simp only [addChildAt, hf, sizeInv, Bool.and_eq_true]
              constructor
              · have hrep := sumSizes_replace p0 (addChildAt ch ps c) cs ch hf
                have : sumSizes (replaceChild p0 (addChildAt ch ps c) cs) =
                    sumSizes cs + osize c := by omega
                rw [this, hs]
                simp
              · exact sizeInvL_replace p0 _ hnew cs hinv.2

theorem add_sorted (c : FSObj) :
    ∀ (p : List String) (t : FSObj), sortedObj t = true → sortedObj c = true →
      sortedObj (addChildAt t p c) = true := by
  intro p
  induction p with
  | nil =>
      intro t hs hc
      cases t with
      | file n s => simpa [addChildAt] using hs
      | dir n s cs =>
          rw [sortedObj, Bool.and_eq_true] at hs
          simp only [addChildAt, sortedObj, Bool.and_eq_true]
          constructor
          · rw [names_insert c cs]
            exact ascStr_insName (nameOf c) _ hs.1
          · exact sortedObjL_insert c hc cs hs.2
  | cons p0 ps ih =>
      intro t hs hc
      cases t with
      | file n s => simpa [addChildAt] using hs
      | dir n s cs =>
          rw [sortedObj, Bool.and_eq_true] at hs
          cases hf : findChild p0 cs with
          | none =>
              simp only [addChildAt, hf, sortedObj, Bool.and_eq_true]
              exact ⟨hs.1, hs.2⟩
          | some ch =>
              have hname : nameOf (addChildAt ch ps c) = nameOf ch := nameOf_add _ _ _
              have hchn : nameOf ch = p0 := findChild_name hf
              have hchs : sortedObj ch = true := sortedObjL_find p0 cs ch hs.2 hf
              simp only [addChildAt, hf, sortedObj, Bool.and_eq_true]
              constructor
              · rw [names_replace p0 _ (by rw [hname, hchn]) cs]
                exact hs.1
              · exact sortedObjL_replace p0 _ (ih ch hchs hc) cs hs.2

/-! ### Builder invariants -/

theorem navStep_clean_mono (t : FSObj) (path : List String) (line : String)
    (t2 : FSObj) (p2 : List String) (c2 : Bool) (m2 : BMode)
    (h : navStep t path false line = .ok (t2, p2, c2, m2)) : c2 = false := by
  unfold navStep at h
  repeat' split at h
  all_goals first
    | (exact h.2.2.1)
    | (simp at h; exact h.2.2.1)
    | (simp at h)

theorem navStep_good (t : FSObj) (path : List String) (clean : Bool) (line : String)
    (t2 : FSObj) (p2 : List String) (c2 : Bool) (m2 : BMode)
    (hv : validDirPath t path = true) (hinv : sizeInv t = true)
    (h : navStep t path clean line = .ok (t2, p2, c2, m2)) (hc2 : c2 = true) :
    clean = true ∧ validDirPath t2 p2 = true ∧ sizeInv t2 = true := by
  unfold navStep at h
  repeat' split at h
  all_goals first
    | (cases h; exact ⟨hc2, hv, hinv⟩)
    | (cases h; exact ⟨hc2, valid_dropLast t path hv, hinv⟩)
    | (cases h
       refine ⟨hc2, ?_, hinv⟩
       rw [validDirPath_nil]
       exact isDir_of_valid t path hv)
    | (cases h
       rename_i hgd
       exact ⟨hc2, valid_getDir t path _ _ hgd, hinv⟩)
    | (cases h
       rw [Bool.and_eq_true] at hc2
       refine ⟨hc2.1, valid_add_new t path _ hv, ?_⟩
       refine add_sizeInv _ _ _ hv hinv rfl ?_
       simpa [nameOf] using hc2.2)
    | (simp at h)

theorem navStep_sorted (t : FSObj) (path : List String) (clean : Bool) (line : String)
    (t2 : FSObj) (p2 : List String) (c2 : Bool) (m2 : BMode)
    (hs0 : sortedObj t = true)
    (h : navStep t path clean line = .ok (t2, p2, c2, m2)) : sortedObj t2 = true := by
  unfold navStep at h
  repeat' split at h
  all_goals first
    | (cases h; assumption)
    | (cases h; exact add_sorted _ _ _ hs0 rfl)
    | (simp at h)

theorem buildRun_clean_mono :
    ∀ (lines : List String) (mode : BMode) (t : FSObj) (path : List String)
      (t2 : FSObj) (c2 : Bool),
      buildRun mode t path false lines = .ok (t2, c2) → c2 = false := by
  intro lines
  induction lines with
  | nil =>
      intro mode t path t2 c2 h
      cases mode <;> (cases h; rfl)
  | cons line rest ih =>
      intro mode t path t2 c2 h
      cases mode <;> simp only [buildRun] at h <;> repeat' split at h
      all_goals first
        | (simp at h)
        | (exact ih _ _ _ _ _ h)
        | (rename_i hnav
           have hc := navStep_clean_mono _ _ _ _ _ _ _ hnav
           subst hc
           exact ih _ _ _ _ _ h)

theorem build_step_nav (t : FSObj) (path : List String) (clean : Bool) (line : String)
    (rest : List String) (t2 : FSObj)
    (hv : validDirPath t path = true) (hinv : sizeInv t = true)
    (h : (match navStep t path clean line with
          | .ok (t3, p3, c3, m3) => buildRun m3 t3 p3 c3 rest
          | .err e => .err e
          | .panic m => .panic m) = .ok (t2, true))
    (ih : ∀ (mode : BMode) (t0 : FSObj) (path0 : List String) (clean0 : Bool),
        validDirPath t0 path0 = true → sizeInv t0 = true →
        buildRun mode t0 path0 clean0 rest = .ok (t2, true) → sizeInv t2 = true) :
    sizeInv t2 = true := by
  cases hnav : navStep t path clean line with
  | err e => rw [hnav] at h; simp at h
  | panic m => rw [hnav] at h; simp at h
  | ok r =>
      obtain ⟨t3, p3, c3, m3⟩ := r
      rw [hnav] at h
      cases c3 with
      | false =>
          have hmono := buildRun_clean_mono rest m3 t3 p3 t2 true h
          cases hmono
      | true =>
          obtain ⟨hcl, hv3, hinv3⟩ :=
            navStep_good t path clean line t3 p3 true m3 hv hinv hnav rfl
          exact ih m3 t3 p3 true hv3 hinv3 h

theorem buildRun_good :
    ∀ (lines : List String) (mode : BMode) (t : FSObj) (path : List String) (clean : Bool)
      (t2 : FSObj),
      validDirPath t path = true → sizeInv t = true →
      buildRun mode t path clean lines = .ok (t2, true) → sizeInv t2 = true := by
  intro lines
  induction lines with
  | nil =>
      intro mode t path clean t2 hv hinv h
      cases mode <;> (cases h; exact hinv)
  | cons line rest ih =>
      intro mode t path clean t2 hv hinv h
      cases mode with
      | nav =>
          simp only [buildRun] at h
          exact build_step_nav t path clean line rest t2 hv hinv h
            (fun m t0 p0 c0 hv2 hi2 hh => ih m t0 p0 c0 t2 hv2 hi2 hh)
      | ls =>
          simp only [buildRun] at h
          split at h
          · simp at h
          rename_i tok args hs
          by_cases h1 : tok = "dir"
          · rw [if_pos h1] at h
            split at h
            · simp at h
            rename_i name r2
            by_cases h2 : containsAt t path name = true
            · rw [if_pos h2] at h
              exact ih _ _ _ _ _ hv hinv h
            · rw [if_neg h2] at h
              have hval2 := valid_add_same (.dir name 0 []) path t hv
              have hinv2 := add_sizeInv (.dir name 0 []) path t hv hinv rfl
                (by simpa [nameOf] using h2)
              exact ih _ _ _ _ _ hval2 hinv2 h
          · rw [if_neg h1] at h
            by_cases h2 : tok = "$"
            · rw [if_pos h2] at h
              exact build_step_nav t path clean line rest t2 hv hinv h
                (fun m t0 p0 c0 hv2 hi2 hh => ih m t0 p0 c0 t2 hv2 hi2 hh)
            · rw [if_neg h2] at h
              split at h
              · simp at h
              rename_i size hp
              split at h
              · simp at h
              rename_i name r2
              by_cases h3 : containsAt t path name = true
              · rw [if_pos h3] at h
                exact ih _ _ _ _ _ hv hinv h
              · rw [if_neg h3] at h
                have hval2 := valid_add_same (.file name size) path t hv
                have hinv2 := add_sizeInv (.file name size) path t hv hinv rfl
                  (by simpa [nameOf] using h3)
                exact ih _ _ _ _ _ hval2 hinv2 h

theorem build_step_nav_sorted (t : FSObj) (path : List String) (clean : Bool) (line : String)
    (rest : List String) (t2 : FSObj) (c2 : Bool)
    (hs0 : sortedObj t = true)
    (h : (match navStep t path clean line with
          | .ok (t3, p3, c3, m3) => buildRun m3 t3 p3 c3 rest
          | .err e => .err e
          | .panic m => .panic m) = .ok (t2, c2))
    (ih : ∀ (mode : BMode) (t0 : FSObj) (path0 : List String) (clean0 : Bool),
        sortedObj t0 = true →
        buildRun mode t0 path0 clean0 rest = .ok (t2, c2) → sortedObj t2 = true) :
    sortedObj t2 = true := by
  cases hnav : navStep t path clean line with
  | err e => rw [hnav] at h; simp at h
  | panic m => rw [hnav] at h; simp at h
  | ok r =>
      obtain ⟨t3, p3, c3, m3⟩ := r
      rw [hnav] at h
      exact ih m3 t3 p3 c3 (navStep_sorted t path clean line t3 p3 c3 m3 hs0 hnav) h

theorem buildRun_sorted :
    ∀ (lines : List String) (mode : BMode) (t : FSObj) (path : List String) (clean : Bool)
      (t2 : FSObj) (c2 : Bool),
      sortedObj t = true →
      buildRun mode t path clean lines = .ok (t2, c2) → sortedObj t2 = true := by
  intro lines
  induction lines with
  | nil =>
      intro mode t path clean t2 c2 hs0 h
      cases mode <;> (cases h; exact hs0)
  | cons line rest ih =>
      intro mode t path clean t2 c2 hs0 h
      cases mode with
      | nav =>
          simp only [buildRun] at h
          exact build_step_nav_sorted t path clean line rest t2 c2 hs0 h
            (fun m t0 p0 c0 hs2 hh => ih m t0 p0 c0 t2 c2 hs2 hh)
      | ls =>
          simp only [buildRun] at h
          split at h
          · simp at h
          rename_i tok args hsp
          by_cases h1 : tok = "dir"
          · rw [if_pos h1] at h
            split at h
            · simp at h
            rename_i name r2
            by_cases h2 : containsAt t path name = true
            · rw [if_pos h2] at h
              exact ih _ _ _ _ _ _ hs0 h
            · rw [if_neg h2] at h
              exact ih _ _ _ _ _ _ (add_sorted (.dir name 0 []) path t hs0 rfl) h
          · rw [if_neg h1] at h
            by_cases h2 : tok = "$"
            · rw [if_pos h2] at h
              exact build_step_nav_sorted t path clean line rest t2 c2 hs0 h
                (fun m t0 p0 c0 hs2 hh => ih m t0 p0 c0 t2 c2 hs2 hh)
            · rw [if_neg h2] at h
              split at h
              · simp at h
              rename_i size hp
              split at h
              · simp at h
              rename_i name r2
              by_cases h3 : containsAt t path name = true
              · rw [if_pos h3] at h
                exact ih _ _ _ _ _ _ hs0 h
              · rw [if_neg h3] at h
                exact ih _ _ _ _ _ _ (add_sorted (.file name size) path t hs0 rfl) h

theorem buildRun_ls_relist :
    ∀ (block : List String) (t : FSObj) (path : List String) (clean : Bool)
      (rest : List String),
      (∀ l ∈ block, relistLine t path l = true) →
      buildRun .ls t path clean (block ++ rest) = buildRun .ls t path clean rest := by
  intro block
  induction block with
  | nil => intro t path clean rest _; rfl
  | cons l bl ih =>
      intro t path clean rest hall
      have hl : relistLine t path l = true := hall l (List.mem_cons_self l bl)
      have hbl : ∀ x ∈ bl, relistLine t path x = true :=
        fun x hx => hall x (List.mem_cons_of_mem l hx)
      rw [List.cons_append]
      simp only [buildRun]
      unfold relistLine at hl
      cases hs : splitWs l with
      | nil => rw [hs] at hl; cases hl
      | cons tok args =>
          simp only [hs] at hl ⊢
          by_cases h1 : tok = "$"
          · rw [if_pos h1] at hl; cases hl
          · rw [if_neg h1] at hl
            by_cases h2 : tok = "dir"
            · rw [if_pos h2] at hl ⊢
              cases args with
              | nil => simp at hl
              | cons name r2 =>
                  have hcon : containsAt t path name = true := hl
                  simp only [hcon, if_true]
                  exact ih t path clean rest hbl
            · rw [if_neg h2] at hl ⊢
              rw [if_neg h1]
              rw [Bool.and_eq_true] at hl
              cases hp : parseUsize tok with
              | none => rw [hp] at hl; simp at hl
              | some size =>
                  simp only [hp]
                  cases args with
                  | nil => simp at hl
                  | cons name r2 =>
                      have hcon : containsAt t path name = true := hl.2
                      simp only [hcon, if_true]
                      exact ih t path clean rest hbl

/-! ### Traversal lemmas -/

theorem find_filter_aux (pred : FSObj → Bool) :
    ∀ n : Nat,
      (∀ t : FSObj, sz t ≤ n → findDirsRecursBy pred t = (preorderDirs t).filter pred)
      ∧ (∀ cs : List FSObj, szL cs ≤ n → findL pred cs = (preL cs).filter pred) := by
  intro n
  induction n with
  | zero =>
      constructor
      · intro t ht
        cases t with
        | file nm s => simp [findDirsRecursBy, preorderDirs]
        | dir nm s cs => simp [sz] at ht
      · intro cs hcs
        cases cs with
        | nil => simp [findL, preL]
        | cons c cs =>
            cases c with
            | file nm s => simp [sz, szL] at hcs
            | dir nm s k => simp [sz, szL] at hcs
  | succ n ih =>
      constructor
      · intro t ht
        cases t with
        | file nm s => simp [findDirsRecursBy, preorderDirs]
        | dir nm s cs =>
            have h1 : szL cs ≤ n := by simp [sz] at ht; omega
            simp only [findDirsRecursBy, preorderDirs]
            exact ih.2 cs h1
      · intro cs hcs
        cases cs with
        | nil => simp [findL, preL]
        | cons c cs =>
            cases c with
            | file nm s =>
                have h1 : szL cs ≤ n := by simp [szL, sz] at hcs; omega
                simp [findL, preL, ih.2 cs h1]
            | dir nm s k =>
                have hk : szL k ≤ n := by simp [szL, sz] at hcs; omega
                have hcs2 : szL cs ≤ n := by simp [szL, sz] at hcs; omega
                have e1 := ih.2 k hk
                have e2 := ih.2 cs hcs2
                simp only [findL, preL, List.filter_append, List.filter_cons]
                simp only [findDirsRecursBy, preorderDirs]
                rw [e1, e2]
                by_cases hp : pred (FSObj.dir nm s k) <;> simp [hp]

theorem findDirsRecursBy_eq_filter (pred : FSObj → Bool) (t : FSObj) :
    findDirsRecursBy pred t = (preorderDirs t).filter pred :=
  (find_filter_aux pred (sz t)).1 t (le_refl _)

theorem preorder_sz_aux :
    ∀ n : Nat,
      (∀ (t x : FSObj), sz t ≤ n → x ∈ preorderDirs t → sz x < sz t)
      ∧ (∀ (cs : List FSObj) (x : FSObj), szL cs ≤ n → x ∈ preL cs → sz x ≤ szL cs) := by
  intro n
  induction n with
  | zero =>
      constructor
      · intro t x ht hx
        cases t with
        | file a b => simp [preorderDirs] at hx
        | dir a b cs => simp [sz] at ht
      · intro cs x hcs hx
        cases cs with
        | nil => simp [preL] at hx
        | cons c cs =>
            cases c with
            | file a b => simp [sz, szL] at hcs
            | dir a b k => simp [sz, szL] at hcs
  | succ n ih =>
      constructor
      · intro t x ht hx
        cases t with
        | file a b => simp [preorderDirs] at hx
        | dir a b cs =>
            have h1 : szL cs ≤ n := by simp [sz] at ht; omega
            simp only [preorderDirs] at hx
            have h2 := ih.2 cs x h1 hx
            rw [sz]
            omega
      · intro cs x hcs hx
        cases cs with
        | nil => simp [preL] at hx
        | cons c cs =>
            cases c with
            | file a b =>
                simp only [preL, List.nil_append] at hx
                have h1 : szL cs ≤ n := by simp [szL, sz] at hcs; omega
                have h2 := ih.2 cs x h1 hx
                rw [szL]
                omega
            | dir a b k =>
                simp only [preL, List.mem_append, List.mem_cons] at hx
                have hk : szL k ≤ n := by simp [szL, sz] at hcs; omega
                have hcs2 : szL cs ≤ n := by simp [szL, sz] at hcs; omega
                rcases hx with (hx | hx) | hx
                · subst hx
                  rw [szL]
                  omega
                · have h2 := ih.2 k x hk (by simpa [preorderDirs] using hx)
                  rw [szL, sz]
                  omega
                · have h2 := ih.2 cs x hcs2 hx
                  rw [szL]
                  omega

theorem foldl_min_aux :
    ∀ (ys : List FSObj) (m : FSObj),
      (List.foldl (fun a y => if osize y < osize a then y else a) m ys = m ∨
        List.foldl (fun a y => if osize y < osize a then y else a) m ys ∈ ys)
      ∧ osize (List.foldl (fun a y => if osize y < osize a then y else a) m ys) ≤ osize m
      ∧ ∀ x ∈ ys,
          osize (List.foldl (fun a y => if osize y < osize a then y else a) m ys) ≤ osize x := by
  intro ys
  induction ys with
  | nil =>
      intro m
      exact ⟨Or.inl rfl, le_refl _, by simp⟩
  | cons y ys ih =>
      intro m
      rw [List.foldl_cons]
      by_cases hy : osize y < osize m
      · rw [if_pos hy]
        obtain ⟨ha, hb, hc⟩ := ih y
        refine ⟨?_, ?_, ?_⟩
        · right
          rcases ha with ha | ha
          · rw [ha]; exact List.mem_cons_self y ys
          · exact List.mem_cons_of_mem y ha
        · omega
        · intro x hx
          rcases List.mem_cons.mp hx with hx | hx
          · subst hx; omega
          · exact hc x hx
      · rw [if_neg hy]
        obtain ⟨ha, hb, hc⟩ := ih m
        refine ⟨?_, hb, ?_⟩
        · rcases ha with ha | ha
          · exact Or.inl ha
          · exact Or.inr (List.mem_cons_of_mem y ha)
        · intro x hx
          rcases List.mem_cons.mp hx with hx | hx
          · subst hx; omega
          · exact hc x hx

theorem minBySize_spec (l : List FSObj) (d : FSObj) (h : minBySize l = some d) :
    d ∈ l ∧ ∀ x ∈ l, osize d ≤ osize x := by
  cases l with
  | nil => simp [minBySize] at h
  | cons x xs =>
      simp only [minBySize, Option.some.injEq] at h
      obtain ⟨ha, hb, hc⟩ := foldl_min_aux xs x
      subst h
      constructor
      · rcases ha with ha | ha
        · rw [ha]; exact List.mem_cons_self x xs
        · exact List.mem_cons_of_mem x ha
      · intro z hz
        rcases List.mem_cons.mp hz with hz | hz
        · subst hz; exact hb
        · exact hc z hz

/-! ### PutBack lemmas -/

theorem putBackList_state {α : Type} :
    ∀ (items buf iter : List α),
      putBackList (PutBack.mk iter buf) items = PutBack.mk iter (buf ++ items) := by
  intro items
  induction items with
  | nil => intro buf iter; simp [putBackList]
  | cons x xs ih =>
      intro buf iter
      show putBackList (PutBack.put_back (PutBack.mk iter buf) x) xs = _
      rw [show PutBack.put_back (PutBack.mk iter buf) x
            = PutBack.mk iter (buf ++ [x]) from rfl]
      rw [ih (buf ++ [x]) iter]
      simp

theorem pbTake_iter {α : Type} :
    ∀ iter : List α, pbTake iter.length (PutBack.mk iter []) = (iter, PutBack.mk [] []) := by
  intro iter
  induction iter with
  | nil => rfl
  | cons y ys ih =>
      show pbTake (ys.length + 1) (PutBack.mk (y :: ys) []) = _
      simp only [pbTake, PutBack.next, ih]

theorem pbTake_drain {α : Type} :
    ∀ (buf iter : List α),
      pbTake (buf.length + iter.length) (PutBack.mk iter buf)
        = (buf ++ iter, PutBack.mk [] []) := by
  intro buf
  induction buf with
  | nil => intro iter; simpa using pbTake_iter iter
  | cons x xs ih =>
      intro iter
      have he : (x :: xs).length + iter.length = (xs.length + iter.length) + 1 := by
        simp [List.length_cons]
        omega
      rw [he]
      simp only [pbTake, PutBack.next, ih iter]
      simp

/-! ### Claim theorems -/

/-- C1 (counterexample): the size invariant fails on a grammatical
transcript.  Every line of trBad matches the transcript grammar and
build_fs succeeds, yet the resulting tree violates the invariant: the
cd onto the name x, which exists as a file, overwrites the file with a
fresh directory without adjusting any cached size, so the root caches 5
while nothing is attached beneath it. -/
theorem c1_size_invariant_cex :
    trBad.all specGrammatical = true ∧ build_fs trBad = .ok treeBad
      ∧ sizeInv treeBad = false :=
  ⟨rfl, rfl, rfl⟩

/-- C1 (amended): for every build run in which no cd step created a
directory over an existing equally named file child (the clean flag of
buildFSX stays true), every directory of the resulting tree caches
exactly the sum of the sizes of the entries attached beneath it. -/
theorem c1_size_invariant_amended (lines : List String) (t : FSObj)
    (h : buildFSX lines = .ok (t, true)) : sizeInv t = true := by
  unfold buildFSX at h
  exact buildRun_good lines .nav fs_root [] true t rfl rfl h

/-- C1 (witness): the amended theorem applied to the concrete
transcript trA, whose build is clean. -/
theorem c1_size_invariant_witness : sizeInv treeA = true :=
  c1_size_invariant_amended trA treeA rfl

/-- C2 (counterexample): on a tree with no subdirectory at all, no
directory meets the Query B threshold and part_2 panics on unwrapping
the empty minimum instead of producing an explicit empty-result
outcome. -/
theorem c2_empty_result_cex :
    part_2 trFlat = .panic ("called unwrap on a None value") :=
  rfl

/-- C2 (amended): whenever no proper descendant directory of the built
root reaches the deletion threshold, part_2 panics (unwrap of a missing
minimum); no explicit empty-result value is ever returned to the
caller. -/
theorem c2_empty_result_amended (lines : List String) (t : FSObj)
    (hb : build_fs lines = .ok t) (hcap : osize t ≤ 70000000)
    (hnone : ∀ d ∈ preorderDirs t, osize d < 30000000 - (70000000 - osize t)) :
    part_2 lines = .panic ("called unwrap on a None value") := by
  have hdirs : findDirsRecursBy
      (fun d => decide (30000000 - (70000000 - osize t) ≤ osize d)) t = [] := by
    rw [findDirsRecursBy_eq_filter]
    refine List.filter_eq_nil_iff.mpr ?_
    intro d hd
    have h2 := hnone d hd
    simp only [decide_eq_true_eq]
    omega
  simp only [part_2, hb]
  rw [if_neg (by omega : ¬ 70000000 < osize t), hdirs]
  rfl

/-- C2 (witness): the amended theorem applied to the flat transcript
trFlat2, whose tree has no directories below the root. -/
theorem c2_empty_result_witness :
    part_2 trFlat2 = .panic ("called unwrap on a None value") :=
  c2_empty_result_amended trFlat2 (.dir ("/") 42 [.file ("f") 42]) rfl
    (by decide) (by decide)

/-- C3 (counterexample): a command verb other than cd or ls does not
surface as a returned error value: build_fs aborts with a panic (and
returns no tree), contradicting the claim that all malformed-input
conditions are returned to the caller as error values. -/
theorem c3_error_surfacing_cex :
    build_fs [("$ foo")] = .panic (("Unknown command: ") ++ ("foo"))
      ∧ isErrB (build_fs [("$ foo")]) = false :=
  ⟨rfl, rfl⟩

/-- C3 (amended): a listing-line size token that fails to parse
surfaces immediately as the returned error value of the build (and no
tree is produced, since the err constructor carries none); an
unrecognized command verb instead aborts with a panic, at the top level
and after the command marker alike. -/
theorem c3_error_surfacing_amended (t : FSObj) (path : List String) (clean : Bool)
    (rest : List String) (line : String) (tok : String) (args : List String)
    (hsplit : splitWs line = tok :: args) :
    (tok ≠ "$" → buildRun .nav t path clean (line :: rest) =
        .panic (("Unknown command: ") ++ tok))
    ∧ (∀ verb vargs, tok = "$" → args = verb :: vargs → verb ≠ "cd" → verb ≠ "ls" →
        buildRun .nav t path clean (line :: rest) =
          .panic (("Unknown command: ") ++ verb))
    ∧ (tok ≠ "dir" → tok ≠ "$" → parseUsize tok = none →
        buildRun .ls t path clean (line :: rest) =
          .err (("invalid size token: ") ++ tok)) := by
  refine ⟨?_, ?_, ?_⟩
  · intro h1
    have hstep : navStep t path clean line = .panic (("Unknown command: ") ++ tok) := by
      unfold navStep
      simp only [hsplit]
      rw [if_neg h1]
    simp only [buildRun, hstep]
  · intro verb vargs h1 h2 h3 h4
    subst h1
    subst h2
    have hstep : navStep t path clean line = .panic (("Unknown command: ") ++ verb) := by
      unfold navStep
      simp only [hsplit]
      rw [if_pos trivial, if_neg h3, if_neg h4]
    simp only [buildRun, hstep]
  · intro h1 h2 hp
    simp only [buildRun, hsplit]
    rw [if_neg h1, if_neg h2, hp]

/-- C3 (witness): the amended theorem applied to three concrete lines:
a top-level token that is not a command marker, an unknown verb after
the marker, and an unparseable size token in a listing. -/
theorem c3_error_surfacing_witness :
    buildRun .nav fs_root [] true [("foo bar")] = .panic (("Unknown command: ") ++ ("foo"))
    ∧ buildRun .nav fs_root [] true [("$ quit")] = .panic (("Unknown command: ") ++ ("quit"))
    ∧ buildRun .ls fs_root [] true [("x9 f.txt")] = .err (("invalid size token: ") ++ ("x9")) := by
  refine ⟨?_, ?_, ?_⟩
  · exact (c3_error_surfacing_amended fs_root [] true [] ("foo bar") ("foo")
      [("bar")] rfl).1 (by decide)
  · exact (c3_error_surfacing_amended fs_root [] true [] ("$ quit") ("$")
      [("quit")] rfl).2.1 ("quit") [] rfl rfl (by decide) (by decide)
  · exact (c3_error_surfacing_amended fs_root [] true [] ("x9 f.txt") ("x9")
      [("f.txt")] rfl).2.2 (by decide) (by decide) rfl

/-- C4: find_dirs_recurs_by is exactly the predicate filter of the
pre-order depth-first enumeration of the proper descendant directories:
a matching directory precedes its matching descendants, every directory
is recursed into whether or not it matched, and siblings are walked in
stored child order, which is ascending name order because every tree
the builder produces satisfies the BTreeMap sortedness invariant
(second conjunct). -/
theorem c4_traversal_order :
    (∀ (pred : FSObj → Bool) (t : FSObj),
        findDirsRecursBy pred t = (preorderDirs t).filter pred)
    ∧ ∀ (lines : List String) (t : FSObj) (b : Bool),
        buildFSX lines = .ok (t, b) → sortedObj t = true := by
  constructor
  · exact findDirsRecursBy_eq_filter
  · intro lines t b h
    unfold buildFSX at h
    exact buildRun_sorted lines .nav fs_root [] true t b rfl h

/-- C4 (witness): the traversal equation at the Query A predicate on
the concrete tree treeA, and sortedness of treeA as built from trA. -/
theorem c4_traversal_order_witness :
    findDirsRecursBy (fun d => decide (osize d ≤ 100000)) treeA
      = (preorderDirs treeA).filter (fun d => decide (osize d ≤ 100000))
    ∧ sortedObj treeA = true :=
  ⟨c4_traversal_order.1 (fun d => decide (osize d ≤ 100000)) treeA,
   c4_traversal_order.2 trA treeA true rfl⟩

/-- C5 (counterexample): a built tree whose parameters make needed
equal 0, on which part_2 returns 1, the size of the smallest proper
subdirectory, and not the root's own size 101. -/
theorem c5_need_zero_cex :
    build_fs trA = .ok treeA ∧ osize treeA = 101
    ∧ 30000000 - (70000000 - osize treeA) = 0
    ∧ part_2 trA = .ok 1
    ∧ (BResult.ok 1 : BResult Nat) ≠ .ok (osize treeA) := by
  refine ⟨rfl, rfl, rfl, rfl, ?_⟩
  intro h
  injection h with h2
  rw [show osize treeA = 101 from rfl] at h2
  omega

/-- C5 (amended): when needed computes to 0, every proper descendant
directory qualifies, and part_2 returns the minimum size among the
proper descendant directories of the root; the root itself is never a
candidate, and if the root has no subdirectory at all the unwrap
panics instead of returning the root's size. -/
theorem c5_need_zero_amended (lines : List String) (t : FSObj)
    (hb : build_fs lines = .ok t) (hcap : osize t ≤ 70000000)
    (hzero : 30000000 - (70000000 - osize t) = 0) :
    (preorderDirs t = [] → part_2 lines = .panic ("called unwrap on a None value"))
    ∧ ∀ d, minBySize (preorderDirs t) = some d →
        part_2 lines = .ok (osize d) ∧ d ∈ preorderDirs t ∧
          ∀ x ∈ preorderDirs t, osize d ≤ osize x := by
  have hdirs : findDirsRecursBy
      (fun d => decide (30000000 - (70000000 - osize t) ≤ osize d)) t = preorderDirs t := by
    rw [findDirsRecursBy_eq_filter]
    refine List.filter_eq_self.mpr ?_
    intro d hd
    rw [hzero]
    simp
  have hpart : part_2 lines =
      (match minBySize (preorderDirs t) with
       | some d => BResult.ok (osize d)
       | none => BResult.panic ("called unwrap on a None value")) := by
    simp only [part_2, hb]
    rw [if_neg (by omega : ¬ 70000000 < osize t), hdirs]
  constructor
  · intro hempty
    rw [hpart, hempty]
    rfl
  · intro d hd
    rw [hpart, hd]
    obtain ⟨hmem, hmin⟩ := minBySize_spec (preorderDirs t) d hd
    exact ⟨rfl, hmem, hmin⟩

/-- C5 (witness): the amended theorem applied to trA: the returned
minimum is the subdirectory a of size 1, which belongs to the proper
descendants and is no larger than any of them. -/
theorem c5_need_zero_witness :
    part_2 trA = .ok (osize (FSObj.dir ("a") 1 [FSObj.file ("c.txt") 1]))
    ∧ (FSObj.dir ("a") 1 [FSObj.file ("c.txt") 1]) ∈ preorderDirs treeA
    ∧ ∀ x ∈ preorderDirs treeA,
        osize (FSObj.dir ("a") 1 [FSObj.file ("c.txt") 1]) ≤ osize x :=
  (c5_need_zero_amended trA treeA rfl (by decide) rfl).2
    (FSObj.dir ("a") 1 [FSObj.file ("c.txt") 1]) rfl

/-- C6: re-processing an ls block for a directory that already contains
children with all the listed names leaves the whole tree, the current
path and the machine state unchanged: running the listing machine on
the block followed by any remaining input equals running it on the
remaining input alone. -/
theorem c6_relisting_idempotent (block : List String) (t : FSObj)
    (path : List String) (clean : Bool) (rest : List String)
    (hall : ∀ l ∈ block, relistLine t path l = true) :
    buildRun .ls t path clean (block ++ rest) = buildRun .ls t path clean rest :=
  buildRun_ls_relist block t path clean rest hall

/-- C6 (witness): re-listing the two entries of the root of treeA is a
no-op. -/
theorem c6_relisting_idempotent_witness :
    buildRun .ls treeA [] true ([("dir a"), ("100 b.txt")] ++ [("$ ls")])
      = buildRun .ls treeA [] true [("$ ls")] :=
  c6_relisting_idempotent [("dir a"), ("100 b.txt")] treeA [] true [("$ ls")]
    (by decide)

/-- C7: processing a cd-to-root line from any current directory at any
depth puts the machine at the single root (the path becomes empty and
the stack, being the prefixes of the path, collapses to the root
alone), with the tree untouched; and processing cd-dotdot while at the
root changes neither the current directory nor the stack.  Stated both
for the single step and for whole runs. -/
theorem c7_root_identity (t : FSObj) (path : List String) (clean : Bool)
    (rest : List String) :
    navStep t path clean ("$ cd /") = .ok (t, [], clean, .nav)
    ∧ navStep t [] clean ("$ cd ..") = .ok (t, [], clean, .nav)
    ∧ buildRun .nav t path clean (("$ cd /") :: rest) = buildRun .nav t [] clean rest
    ∧ buildRun .nav t [] clean (("$ cd ..") :: rest) = buildRun .nav t [] clean rest :=
  ⟨rfl, rfl, rfl, rfl⟩

/-- C8: adding a child under the directory at a valid path p places the
child, unchanged, into that directory's map under the child's own name
(so its parent is the directory at p); the cached size of the target
and of every ancestor on the chain up to the root (exactly the prefixes
of p) grows by the child's current size; and every tree location that
is neither on that ancestor chain nor at or below the insertion point
is unchanged.  This holds for add_dir and add_file alike, and also when
the insertion overwrites an existing equally named entry. -/
theorem c8_add_child_effects (t : FSObj) (p : List String) (c : FSObj)
    (hv : validDirPath t p = true) :
    lookupAt (addChildAt t p c) (p ++ [nameOf c]) = some c
    ∧ (∀ q, pathPrefixB q p = true →
        csizeAt (addChildAt t p c) q = csizeAt t q + osize c)
    ∧ ∀ q, pathPrefixB q p = false → pathPrefixB (p ++ [nameOf c]) q = false →
        lookupAt (addChildAt t p c) q = lookupAt t q :=
  ⟨lookup_add_self c p t hv,
   fun q hq => csize_add_prefix c p t q hv hq,
   fun q h1 h2 => lookup_add_frame c p t q h1 h2⟩

/-- C8 (witness): adding a 7-byte file under the subdirectory a of
treeA: the file appears at its path, the sizes of a and of the root
each grow by 7, and the sibling file b.txt is untouched. -/
theorem c8_add_child_effects_witness :
    lookupAt (addChildAt treeA [("a")] (.file ("d.txt") 7))
        ([("a")] ++ [nameOf (.file ("d.txt") 7)]) = some (.file ("d.txt") 7)
    ∧ csizeAt (addChildAt treeA [("a")] (.file ("d.txt") 7)) []
        = csizeAt treeA [] + osize (FSObj.file ("d.txt") 7)
    ∧ lookupAt (addChildAt treeA [("a")] (.file ("d.txt") 7)) [("b.txt")]
        = lookupAt treeA [("b.txt")] := by
  obtain ⟨h1, h2, h3⟩ := c8_add_child_effects treeA [("a")] (.file ("d.txt") 7) (by decide)
  exact ⟨h1, h2 [] (by decide), h3 [("b.txt")] (by decide) (by decide)⟩

/-- C9: for any buffer state and any further sequence of put-backs,
repeatedly calling next returns every pending put-back item before the
underlying source is advanced, in the order the items were pushed back,
with no bound on how many are pending; the statement is polymorphic in
the item type, so no item content is inspected. -/
theorem c9_putback_fifo {α : Type} (iter buf items : List α) :
    pbTake (buf.length + items.length + iter.length)
        (putBackList (PutBack.mk iter buf) items)
      = (buf ++ items ++ iter, PutBack.mk [] []) := by
  rw [putBackList_state items buf iter]
  rw [show buf.length + items.length = (buf ++ items).length from
    (List.length_append buf items).symm]
  rw [pbTake_drain (buf ++ items) iter]

/-- C10: a directory is never an element of the result of its own
find_dirs_recurs_by, whatever the predicate: the traversal only ever
pushes proper descendants, which are strictly smaller trees.  In
particular the root a query is run on never appears in the result set
of Query A or Query B. -/
theorem c10_receiver_excluded (pred : FSObj → Bool) (t : FSObj) :
    t ∉ findDirsRecursBy pred t := by
  intro hmem
  rw [findDirsRecursBy_eq_filter] at hmem
  have h1 : t ∈ preorderDirs t := List.mem_of_mem_filter hmem
  have h2 : sz t < sz t := (preorder_sz_aux (sz t)).1 t t (le_refl _) h1
  omega
